import Mathlib

/-!
Shallow embedding of the segmentation and export engine of the
mp3-slice-and-dice repository (src/components/AudioEditor.tsx,
src/components/VideoEditor.tsx and the split-point list components).

Times are modelled as rationals (JS numbers used as seconds), sample
indices as integers, identifiers as naturals (the source draws opaque
random string ids; the model uses a fresh counter, which preserves the
only property the code relies on: distinctness of freshly drawn ids).
-/

namespace SliceDice

/-- `SplitPoint` from AudioEditor.tsx / VideoEditor.tsx:
`{ id: string, time: number, label: string }`. -/
structure SplitPoint where
  id : ℕ
  time : ℚ
  label : String
deriving DecidableEq

/-- The editor component state the split-point operations touch:
the `duration` state variable, the `splitPoints` state array, plus the
fresh-id supply standing in for `Math.random().toString(36)`. -/
structure EditorState where
  duration : ℚ
  splitPoints : List SplitPoint
  nextId : ℕ
deriving DecidableEq

/-- The comparator `(a, b) => a.time - b.time` passed to `Array.sort`,
as the boolean "a sorts no later than b". -/
def ptLE (a b : SplitPoint) : Bool := a.time ≤ b.time

/-- `[...array].sort((a, b) => a.time - b.time)`: JS `Array.sort` is a
stable sort, modelled by `List.mergeSort`. -/
def sortPoints (l : List SplitPoint) : List SplitPoint :=
  l.mergeSort ptLE

/-- `addSplitPoint(time)` (AudioEditor.tsx lines 82-91, VideoEditor.tsx
lines 65-74): builds `{ id: fresh, time, label: "Split " + (len+1) }`
and stores `[...splitPoints, newPoint].sort(byTime)`.  Note: the source
stores `time` exactly as received; there is no clamping. -/
def addSplitPoint (s : EditorState) (time : ℚ) : EditorState :=
  let newPoint : SplitPoint :=
    { id := s.nextId
      time := time
      label := "Split " ++ toString (s.splitPoints.length + 1) }
  { s with
    splitPoints := sortPoints (s.splitPoints ++ [newPoint])
    nextId := s.nextId + 1 }

/-- `removeSplitPoint(id)`: `splitPoints.filter(point => point.id !== id)`. -/
def removeSplitPoint (s : EditorState) (id : ℕ) : EditorState :=
  { s with splitPoints := s.splitPoints.filter (fun point => point.id ≠ id) }

/-- `Math.max(0, Math.min(duration, newTime))` from
`updateSplitPoint` (VideoEditor.tsx line 83). -/
def clampTime (duration newTime : ℚ) : ℚ :=
  max 0 (min duration newTime)

/-- `updateSplitPoint(id, newTime)` (VideoEditor.tsx lines 81-86): maps
over the points, replacing the matching point's time by the clamped new
time, then re-sorts by time. -/
def updateSplitPoint (s : EditorState) (id : ℕ) (newTime : ℚ) : EditorState :=
  { s with
    splitPoints :=
      sortPoints (s.splitPoints.map (fun point =>
        if point.id = id then { point with time := clampTime s.duration newTime }
        else point)) }

/-- Derived `Segment` record from `getSegments`:
`{ start, end, duration: end - start, index: i + 1 }` (`end` is a Lean
keyword, rendered here as `stop`). -/
structure Segment where
  start : ℚ
  stop : ℚ
  duration : ℚ
  index : ℕ
deriving DecidableEq

/-- The boundary array `[0, ...splitPoints.map(p => p.time), duration]`
built by `getSegments` and by `downloadSegments`. -/
def boundaryPoints (s : EditorState) : List ℚ :=
  0 :: (s.splitPoints.map (fun p => p.time) ++ [s.duration])

/-- The loop of `getSegments`: for consecutive pairs
`points[i], points[i+1]` emit `{start, end, duration, index: i + 1}`;
`i` is the number of segments already emitted. -/
def segmentsOfPoints : List ℚ → ℕ → List Segment
  | a :: b :: rest, i =>
      { start := a, stop := b, duration := b - a, index := i + 1 }
        :: segmentsOfPoints (b :: rest) (i + 1)
  | _, _ => []

/-- `getSegments()` (SplitPointsList.tsx / VideoSplitPointsList.tsx):
the derived segment list over `[0, ...splitTimes, duration]`. -/
def getSegments (s : EditorState) : List Segment :=
  segmentsOfPoints (boundaryPoints s) 0

/-- `deleteSegment(segmentIndex)` (VideoEditor.tsx lines 205-221):
for the last segment remove the split point at `segmentIndex - 2`,
otherwise the one at `segmentIndex - 1`, in both cases only when that
index is inside the split-point array; otherwise the state is kept. -/
def deleteSegment (s : EditorState) (segmentIndex : ℤ) : EditorState :=
  let totalSegments : ℤ := (s.splitPoints.length : ℤ) + 1
  let splitPointIndex : ℤ :=
    if segmentIndex = totalSegments then segmentIndex - 2 else segmentIndex - 1
  if 0 ≤ splitPointIndex ∧ splitPointIndex < (s.splitPoints.length : ℤ) then
    match s.splitPoints.get? splitPointIndex.toNat with
    | some p => removeSplitPoint s p.id
    | none => s
  else s

/-! ### Segment extractor (AudioEditor.tsx `extractSegment`, lines 138-160) -/

/-- The decoded source `AudioBuffer`: sample rate, per-channel length and
channel sample data (`getChannelData(channel)[i]`).  Only in-bounds
indices carry data; a JS typed-array read outside `[0, length)` yields
`undefined`, modelled below by `none`. -/
structure AudioBuffer where
  sampleRate : ℚ
  numberOfChannels : ℕ
  length : ℕ
  data : ℕ → ℕ → ℚ

/-- A single `channelData[i]` read with a possibly out-of-range integer
index: `some` sample when `0 ≤ i < length`, `none` (JS `undefined`)
otherwise. -/
def readSample (b : AudioBuffer) (channel : ℕ) (i : ℤ) : Option ℚ :=
  if 0 ≤ i ∧ i < (b.length : ℤ) then some (b.data channel i.toNat) else none

/-- `const startSample = Math.floor(startTime * buffer.sampleRate)`. -/
def startSample (b : AudioBuffer) (startTime : ℚ) : ℤ :=
  ⌊startTime * b.sampleRate⌋

/-- `const endSample = Math.floor(endTime * buffer.sampleRate)`.
Note: the source does not clamp this value to `buffer.length`. -/
def endSample (b : AudioBuffer) (endTime : ℚ) : ℤ :=
  ⌊endTime * b.sampleRate⌋

/-- `const segmentLength = endSample - startSample`. -/
def segmentLength (b : AudioBuffer) (startTime endTime : ℚ) : ℤ :=
  endSample b endTime - startSample b startTime

/-- `extractSegment(buffer, startTime, endTime)`, one channel: the copy
loop `for i in [0, segmentLength): segmentData[i] = channelData[startSample + i]`.
Each entry is the read performed, `none` marking a read past the end of
the source channel data (stored as `undefined`/NaN by the source). -/
def extractSegmentChannel (b : AudioBuffer) (startTime endTime : ℚ)
    (channel : ℕ) : List (Option ℚ) :=
  (List.range (segmentLength b startTime endTime).toNat).map
    (fun i : ℕ => readSample b channel (startSample b startTime + (i : ℤ)))

/-- `extractSegment` over all channels: the fresh buffer keeps the
source's channel count and sample rate and holds `segmentLength`
samples per channel. -/
def extractSegment (b : AudioBuffer) (startTime endTime : ℚ) :
    List (List (Option ℚ)) :=
  (List.range b.numberOfChannels).map (extractSegmentChannel b startTime endTime)

/-! ### Export pipelines (`downloadSegments` in both editors)

The encode step is the external black box; it is modelled by an
environment `encodeOk : ℕ → Bool` telling, per 1-based segment number,
whether its encode succeeds (`ffmpeg.exec` / `audioBufferToBlob`
resolving) or throws.  An export run is recorded as the list of
observable events in order. -/

/-- Observable pipeline events: a segment finishing its encode, an
output being handed to the browser for download, and the single
caught-failure toast. -/
inductive ExportEvent where
  | encoded (i : ℕ)
  | delivered (i : ℕ)
  | failed
deriving DecidableEq

/-- Audio `downloadSegments` loop (AudioEditor.tsx lines 114-128): each
iteration extracts and encodes segment `i`, then immediately creates the
object URL and clicks the download anchor; a throw is caught once
outside the loop.  `i` is the 1-based segment number, `fuel` the number
of segments still to process. -/
def audioExportLoop (encodeOk : ℕ → Bool) : ℕ → ℕ → List ExportEvent
  | _, 0 => []
  | i, fuel + 1 =>
    if encodeOk i then
      ExportEvent.encoded i :: ExportEvent.delivered i
        :: audioExportLoop encodeOk (i + 1) fuel
    else [ExportEvent.failed]

/-- The audio export of `n` segments. -/
def audioExport (encodeOk : ℕ → Bool) (n : ℕ) : List ExportEvent :=
  audioExportLoop encodeOk 1 n

/-- Video `downloadSegments` loop (VideoEditor.tsx lines 107-132): each
iteration encodes segment `i` and pushes the blob onto `segmentBlobs`;
a throw is caught once outside the loop.  Returns the events of the
loop and, when no segment failed, the collected blob numbers. -/
def videoExportLoop (encodeOk : ℕ → Bool) :
    ℕ → ℕ → List ExportEvent × Option (List ℕ)
  | _, 0 => ([], some [])
  | i, fuel + 1 =>
    if encodeOk i then
      let r := videoExportLoop encodeOk (i + 1) fuel
      (ExportEvent.encoded i :: r.1, r.2.map (fun l => i :: l))
    else ([ExportEvent.failed], none)

/-- Video `downloadSegments` of `n` segments: after the loop the
collected blobs are clicked for download one after the other
(lines 139-148); when the loop threw, nothing is delivered. -/
def videoExport (encodeOk : ℕ → Bool) (n : ℕ) : List ExportEvent :=
  match videoExportLoop encodeOk 1 n with
  | (evs, some blobs) => evs ++ blobs.map ExportEvent.delivered
  | (evs, none) => evs

/-! ### Encoder adapter (`ensureFfmpeg`, VideoEditor.tsx lines 223-267)

The adapter state is `ffmpegRef.current : Option`; loading an instance
from source `k` succeeds iff the network environment `ok k` holds.  The
three hard-coded sources, in the order tried, are
`0` = jsDelivr `/dist`, `1` = unpkg `/dist`, `2` = jsDelivr mixed
`/dist/esm`.  The result pairs the returned instance (`none` = the
function threw) with the new adapter state. -/
def ensureFfmpeg (ok : ℕ → Bool) (st : Option ℕ) : Option ℕ × Option ℕ :=
  match st with
  | some f => (some f, some f)
  | none =>
    if ok 0 then (some 0, some 0)
    else if ok 1 then (some 1, some 1)
    else if ok 2 then (some 2, some 2)
    else (none, none)

/-- The sortedness invariant of the split-point list: non-decreasing
times. -/
def sortedByTime (l : List SplitPoint) : Prop :=
  l.Pairwise (fun a b => a.time ≤ b.time)

/-- The union of the time ranges covered by a segment list, used to
state the merge-delete preservation property. -/
def segUnion (l : List Segment) : Set ℚ :=
  l.foldr (fun seg acc => Set.Icc seg.start seg.stop ∪ acc) ∅

/-- States reachable through the three split-point mutations from a
freshly loaded file (empty split-point list). -/
inductive Reachable : EditorState → Prop
  | init (d : ℚ) : Reachable { duration := d, splitPoints := [], nextId := 0 }
  | add {s : EditorState} (t : ℚ) : Reachable s → Reachable (addSplitPoint s t)
  | update {s : EditorState} (id : ℕ) (t : ℚ) :
      Reachable s → Reachable (updateSplitPoint s id t)
  | remove {s : EditorState} (id : ℕ) :
      Reachable s → Reachable (removeSplitPoint s id)

/-! ## Helper lemmas -/

theorem ptLE_trans : ∀ a b c : SplitPoint, ptLE a b → ptLE b c → ptLE a c := by
  intro a b c hab hbc
  simp only [ptLE, decide_eq_true_eq] at *
  exact le_trans hab hbc

theorem ptLE_total : ∀ a b : SplitPoint, ptLE a b || ptLE b a := by
  intro a b
  simp only [ptLE, Bool.or_eq_true, decide_eq_true_eq]
  exact le_total a.time b.time

theorem sortPoints_perm (l : List SplitPoint) : List.Perm (sortPoints l) l :=
  List.mergeSort_perm l ptLE

theorem sortedByTime_sortPoints (l : List SplitPoint) :
    sortedByTime (sortPoints l) := by
  have h := List.sorted_mergeSort ptLE_trans ptLE_total l
  exact h.imp (fun hab => by simpa [ptLE] using hab)

theorem sortPoints_of_sorted {l : List SplitPoint} (h : sortedByTime l) :
    sortPoints l = l := by
  apply List.mergeSort_of_sorted
  exact h.imp (fun hab => by simpa [ptLE] using hab)

theorem sortPoints_pair (a b : SplitPoint) :
    sortPoints [a, b] = if ptLE a b then [a, b] else [b, a] := by
  simp [sortPoints, List.mergeSort, List.splitInTwo, List.merge,
    List.splitAt, List.splitAt.go]

theorem segmentsOfPoints_length (pts : List ℚ) (i : ℕ) :
    (segmentsOfPoints pts i).length = pts.length - 1 := by
  induction pts generalizing i with
  | nil => simp [segmentsOfPoints]
  | cons a tl ih =>
      cases tl with
      | nil => simp [segmentsOfPoints]
      | cons b rest => simp [segmentsOfPoints, ih]

theorem segmentsOfPoints_get? (pts : List ℚ) (i k : ℕ) :
    (segmentsOfPoints pts i).get? k =
      match pts.get? k, pts.get? (k + 1) with
      | some a, some b =>
          some { start := a, stop := b, duration := b - a, index := i + k + 1 }
      | _, _ => none := by
  induction k generalizing pts i with
  | zero =>
      match pts with
      | [] => rfl
      | [a] => rfl
      | a :: b :: rest => rfl
  | succ k ih =>
      match pts with
      | [] => rfl
      | [a] => rfl
      | a :: b :: rest =>
          show (segmentsOfPoints (b :: rest) (i + 1)).get? k = _
          rw [ih (b :: rest) (i + 1)]
          rw [show i + 1 + k + 1 = i + (k + 1) + 1 from by omega]
          rfl

theorem segmentsOfPoints_duration (pts : List ℚ) (i : ℕ) :
    ∀ g ∈ segmentsOfPoints pts i, g.duration = g.stop - g.start := by
  induction pts generalizing i with
  | nil => simp [segmentsOfPoints]
  | cons a tl ih =>
      cases tl with
      | nil => simp [segmentsOfPoints]
      | cons b rest =>
          intro g hg
          rcases List.mem_cons.mp hg with hg | hg
          · subst hg; rfl
          · exact ih (i + 1) g hg

theorem boundaryPoints_length (s : EditorState) :
    (boundaryPoints s).length = s.splitPoints.length + 2 := by
  simp [boundaryPoints]

theorem boundaryPoints_get?_zero (s : EditorState) :
    (boundaryPoints s).get? 0 = some 0 := rfl

theorem boundaryPoints_get?_last (s : EditorState) :
    (boundaryPoints s).get? (s.splitPoints.length + 1) = some s.duration := by
  show (s.splitPoints.map (fun p => p.time) ++ [s.duration]).get?
    (s.splitPoints.length) = some s.duration
  rw [show s.splitPoints.length = (s.splitPoints.map (fun p => p.time)).length from
    (List.length_map _ _).symm]
  exact List.get?_concat_length _ _

theorem getSegments_length (s : EditorState) :
    (getSegments s).length = s.splitPoints.length + 1 := by
  simp [getSegments, segmentsOfPoints_length, boundaryPoints_length]

theorem filter_id_eraseIdx (l : List SplitPoint) (n : ℕ) (p : SplitPoint)
    (hnd : (l.map (fun q => q.id)).Nodup) (hp : l.get? n = some p) :
    l.filter (fun q => q.id ≠ p.id) = l.eraseIdx n := by
  induction l generalizing n with
  | nil => simp at hp
  | cons x tl ih =>
      have hnd' : (x.id :: tl.map (fun r => r.id)).Nodup := by simpa using hnd
      cases n with
      | zero =>
          have hxp : x = p := by simpa using hp
          rw [← hxp]
          rw [List.filter_cons, List.eraseIdx_cons_zero]
          rw [if_neg (by simp)]
          refine List.filter_eq_self.mpr ?_
          intro q hq
          simp only [ne_eq, decide_not, Bool.not_eq_true', decide_eq_false_iff_not]
          intro heq
          have hmem : x.id ∈ tl.map (fun r => r.id) := by
            rw [← heq]
            exact List.mem_map_of_mem _ hq
          exact (List.nodup_cons.mp hnd').1 hmem
      | succ n =>
          have hp' : tl.get? n = some p := by simpa using hp
          have hmem : p ∈ tl := List.get?_mem hp'
          have hxp : decide (x.id ≠ p.id) = true := by
            simp only [ne_eq, decide_not, Bool.not_eq_true', decide_eq_false_iff_not]
            intro heq
            have : x.id ∈ tl.map (fun r => r.id) := by
              rw [heq]
              exact List.mem_map_of_mem _ hmem
            exact (List.nodup_cons.mp hnd').1 this
          rw [List.filter_cons, List.eraseIdx_cons_succ, if_pos hxp]
          rw [ih n (List.nodup_cons.mp hnd').2 hp']

theorem deleteSegment_of_empty (s : EditorState) (i : ℤ)
    (h : s.splitPoints = []) : deleteSegment s i = s := by
  simp only [deleteSegment, h, List.length_nil, Nat.cast_zero]
  by_cases hi : i = (0 : ℤ) + 1
  · subst hi
    norm_num
  · rw [if_neg hi]
    rw [if_neg (by omega)]

theorem deleteSegment_duration (s : EditorState) (i : ℤ) :
    (deleteSegment s i).duration = s.duration := by
  rw [deleteSegment]
  repeat' split
  all_goals rfl

theorem deleteSegment_mid (s : EditorState) (i : ℤ)
    (hnd : (s.splitPoints.map (fun q => q.id)).Nodup)
    (h1 : 1 ≤ i) (h2 : i ≤ (s.splitPoints.length : ℤ)) :
    (deleteSegment s i).splitPoints = s.splitPoints.eraseIdx (i - 1).toNat := by
  have hne : ¬ i = (s.splitPoints.length : ℤ) + 1 := by omega
  have hlt : (i - 1).toNat < s.splitPoints.length := by omega
  have hget := List.get?_eq_get hlt
  simp only [deleteSegment, hne, if_false]
  rw [if_pos ⟨by omega, by omega⟩, hget]
  show (removeSplitPoint s _).splitPoints = _
  rw [removeSplitPoint]
  exact filter_id_eraseIdx _ _ _ hnd hget

theorem deleteSegment_last (s : EditorState)
    (hnd : (s.splitPoints.map (fun q => q.id)).Nodup)
    (hlen : 1 ≤ s.splitPoints.length) :
    (deleteSegment s ((s.splitPoints.length : ℤ) + 1)).splitPoints
      = s.splitPoints.eraseIdx (s.splitPoints.length - 1) := by
  have hlt : ((s.splitPoints.length : ℤ) + 1 - 2).toNat < s.splitPoints.length := by omega
  have hget := List.get?_eq_get hlt
  simp only [deleteSegment, eq_self_iff_true, if_true]
  rw [if_pos ⟨by omega, by omega⟩, hget]
  show (removeSplitPoint s _).splitPoints = _
  rw [removeSplitPoint]
  rw [filter_id_eraseIdx _ _ _ hnd hget]
  have htn : ((s.splitPoints.length : ℤ) + 1 - 2).toNat = s.splitPoints.length - 1 := by
    omega
  rw [htn]

theorem deleteSegment_noop (s : EditorState) (i : ℤ)
    (h : i < 1 ∨ (s.splitPoints.length : ℤ) + 1 < i) : deleteSegment s i = s := by
  rcases h with h | h
  · have hne : ¬ i = (s.splitPoints.length : ℤ) + 1 := by omega
    simp only [deleteSegment, hne, if_false]
    rw [if_neg (by omega)]
  · have hne : ¬ i = (s.splitPoints.length : ℤ) + 1 := by omega
    simp only [deleteSegment, hne, if_false]
    rw [if_neg (by omega)]

theorem segUnion_concat (mid : List ℚ) (a z : ℚ) (i : ℕ)
    (h : (a :: (mid ++ [z])).Pairwise (· ≤ ·)) :
    segUnion (segmentsOfPoints (a :: (mid ++ [z])) i) = Set.Icc a z := by
  induction mid generalizing a i with
  | nil =>
      show Set.Icc a z ∪ segUnion (segmentsOfPoints [z] (i + 1)) = Set.Icc a z
      simp [segmentsOfPoints, segUnion]
  | cons b mid ih =>
      have hab : a ≤ b := (List.pairwise_cons.mp h).1 b (by simp)
      have hrest : (b :: (mid ++ [z])).Pairwise (· ≤ ·) :=
        (List.pairwise_cons.mp h).2
      have hbz : b ≤ z := (List.pairwise_cons.mp hrest).1 z (by simp)
      show Set.Icc a b ∪ segUnion (segmentsOfPoints (b :: (mid ++ [z])) (i + 1))
        = Set.Icc a z
      rw [ih b (i + 1) hrest]
      exact Set.Icc_union_Icc_eq_Icc hab hbz

theorem segUnion_getSegments (s : EditorState)
    (hsorted : sortedByTime s.splitPoints)
    (hrange : ∀ p ∈ s.splitPoints, 0 ≤ p.time ∧ p.time ≤ s.duration)
    (hD : 0 ≤ s.duration) :
    segUnion (getSegments s) = Set.Icc 0 s.duration := by
  have hpw : ((0 : ℚ) :: (s.splitPoints.map (fun p => p.time) ++ [s.duration])).Pairwise
      (· ≤ ·) := by
    rw [List.pairwise_cons]
    refine ⟨?_, ?_⟩
    · intro x hx
      rcases List.mem_append.mp hx with hx | hx
      · obtain ⟨p, hp, rfl⟩ := List.mem_map.mp hx
        exact (hrange p hp).1
      · simp only [List.mem_singleton] at hx
        exact hx ▸ hD
    · rw [List.pairwise_append]
      refine ⟨List.pairwise_map.mpr (hsorted.imp (fun hab => hab)), by simp, ?_⟩
      intro x hx y hy
      obtain ⟨p, hp, rfl⟩ := List.mem_map.mp hx
      simp only [List.mem_singleton] at hy
      exact hy ▸ (hrange p hp).2
  rw [getSegments, boundaryPoints]
  exact segUnion_concat _ 0 s.duration 0 hpw

/-! ## Claim C1 -/

/-- C1 counterexample: with duration 10, `addSplitPoint 15` stores a
split point whose time is 15, outside `[0, 10]` — the time is stored
raw, refuting "a time outside that range is clamped to the nearest
boundary before the point is inserted, never stored raw". -/
theorem C1_counterexample :
    (addSplitPoint { duration := 10, splitPoints := [], nextId := 0 } 15).splitPoints
      = [{ id := 0, time := 15, label := "Split 1" }]
      ∧ ¬ ((15 : ℚ) ≤ 10) := by
  constructor
  · simp only [addSplitPoint, sortPoints, List.nil_append, List.mergeSort_singleton]
    rfl
  · norm_num

/-- C1 amended: `addSplitPoint(t)` stores a split point whose time is
exactly the input `t`, unchanged — out-of-range input is neither clamped
nor rejected; the new point carries a fresh id and the label
"Split (count+1)", and the resulting list is the stable sort by time of
the old points plus the new one. -/
theorem C1_amended (s : EditorState) (t : ℚ) :
    List.Perm (addSplitPoint s t).splitPoints
      ({ id := s.nextId, time := t,
         label := "Split " ++ toString (s.splitPoints.length + 1) } :: s.splitPoints)
    ∧ sortedByTime (addSplitPoint s t).splitPoints := by
  constructor
  · exact (sortPoints_perm _).trans (List.perm_append_singleton _ _)
  · exact sortedByTime_sortPoints _

/-! ## Claim C2 -/

/-- C2: for a positive duration and split times inside `[0, duration]`,
`getSegments` yields exactly `count + 1` segments; the first starts at
0, the last ends at the duration, each later segment starts where the
previous one stops, each segment's duration field is `stop - start`,
and indices are the consecutive 1-based ordinals. -/
theorem C2_thm (s : EditorState) (hD : 0 < s.duration)
    (hRange : ∀ p ∈ s.splitPoints, 0 ≤ p.time ∧ p.time ≤ s.duration) :
    (getSegments s).length = s.splitPoints.length + 1
    ∧ ((getSegments s).get? 0).map (fun g => g.start) = some 0
    ∧ ((getSegments s).get? ((getSegments s).length - 1)).map (fun g => g.stop)
        = some s.duration
    ∧ (∀ k g h', (getSegments s).get? k = some g →
        (getSegments s).get? (k + 1) = some h' → h'.start = g.stop)
    ∧ (∀ g ∈ getSegments s, g.duration = g.stop - g.start)
    ∧ (∀ k g, (getSegments s).get? k = some g → g.index = k + 1) := by
  have hlen : (getSegments s).length = s.splitPoints.length + 1 := by
    simp [getSegments, segmentsOfPoints_length, boundaryPoints_length]
  refine ⟨hlen, ?_, ?_, ?_, ?_, ?_⟩
  · have h1 : 1 < (boundaryPoints s).length := by
      rw [boundaryPoints_length]; omega
    have hb := List.get?_eq_get h1
    rw [getSegments, segmentsOfPoints_get?]
    simp only [Nat.zero_add]
    rw [boundaryPoints_get?_zero, hb]
    rfl
  · rw [hlen]
    simp only [Nat.add_sub_cancel]
    have hn : s.splitPoints.length < (boundaryPoints s).length := by
      rw [boundaryPoints_length]; omega
    have ha := List.get?_eq_get hn
    rw [getSegments, segmentsOfPoints_get?, ha, boundaryPoints_get?_last]
    rfl
  · intro k g h' hg hh
    rw [getSegments, segmentsOfPoints_get?] at hg hh
    cases ha : (boundaryPoints s).get? k with
    | none => rw [ha] at hg; exact absurd hg (by simp)
    | some a =>
      cases hb : (boundaryPoints s).get? (k + 1) with
      | none => rw [ha, hb] at hg; exact absurd hg (by simp)
      | some b =>
        cases hc : (boundaryPoints s).get? (k + 1 + 1) with
        | none => rw [hb, hc] at hh; exact absurd hh (by simp)
        | some c =>
          rw [ha, hb] at hg
          rw [hb, hc] at hh
          simp only [Option.some.injEq] at hg hh
          rw [← hg, ← hh]
  · intro g hg
    exact segmentsOfPoints_duration _ _ g hg
  · intro k g hg
    rw [getSegments, segmentsOfPoints_get?] at hg
    cases ha : (boundaryPoints s).get? k with
    | none => rw [ha] at hg; exact absurd hg (by simp)
    | some a =>
      cases hb : (boundaryPoints s).get? (k + 1) with
      | none => rw [ha, hb] at hg; exact absurd hg (by simp)
      | some b =>
        rw [ha, hb] at hg
        simp only [Option.some.injEq] at hg
        rw [← hg]
        simp

/-- C2 witness: duration 90 with split points at 30 and 60 yields
exactly 3 segments. -/
theorem C2_witness :
    (0 : ℚ) < 90
    ∧ (getSegments ⟨90, [⟨0, 30, "Split 1"⟩, ⟨1, 60, "Split 2"⟩], 2⟩).length = 3 :=
  ⟨by norm_num, (C2_thm _ (by norm_num) (by decide)).1⟩

/-! ## Claim C8 -/

/-- C8: every state reachable from the initial empty state through
`addSplitPoint`, `updateSplitPoint` and `removeSplitPoint` has its
split-point list sorted ascending by time: each mutation re-establishes
sortedness itself. -/
theorem C8_thm (s : EditorState) (h : Reachable s) :
    sortedByTime s.splitPoints := by
  induction h with
  | init d => exact List.Pairwise.nil
  | add t _ _ => exact sortedByTime_sortPoints _
  | update id t _ _ => exact sortedByTime_sortPoints _
  | remove id _ ih => exact ih.filter _

/-- C8 witness: the state reached by one `addSplitPoint 5` from the
initial state over duration 10 is sorted. -/
theorem C8_witness :
    sortedByTime
      (addSplitPoint { duration := 10, splitPoints := [], nextId := 0 } 5).splitPoints :=
  C8_thm _ (Reachable.add 5 (Reachable.init 10))

/-! ## Claim C7 -/

/-- C7: `updateSplitPoint(id, t)` on an absent id keeps the point
multiset unchanged (and is a strict no-op on a sorted list); in general
the result is a permutation of the pointwise update, in which the
matched point keeps its id and label and carries the time clamped to
`[0, duration]`, and every other point is unchanged. -/
theorem C7_thm (s : EditorState) (pid : ℕ) (newTime : ℚ) :
    ((∀ p ∈ s.splitPoints, p.id ≠ pid) →
        List.Perm (updateSplitPoint s pid newTime).splitPoints s.splitPoints
        ∧ (sortedByTime s.splitPoints → updateSplitPoint s pid newTime = s))
    ∧ List.Perm (updateSplitPoint s pid newTime).splitPoints
        (s.splitPoints.map (fun p =>
          if p.id = pid then { p with time := clampTime s.duration newTime } else p))
    ∧ (∀ p ∈ s.splitPoints, p.id = pid →
        ({ id := p.id, time := clampTime s.duration newTime, label := p.label } : SplitPoint)
          ∈ (updateSplitPoint s pid newTime).splitPoints)
    ∧ (∀ q ∈ s.splitPoints, q.id ≠ pid →
        q ∈ (updateSplitPoint s pid newTime).splitPoints)
    ∧ (0 ≤ s.duration →
        0 ≤ clampTime s.duration newTime ∧ clampTime s.duration newTime ≤ s.duration) := by
  have hmapid : (∀ p ∈ s.splitPoints, p.id ≠ pid) →
      s.splitPoints.map (fun p =>
        if p.id = pid then { p with time := clampTime s.duration newTime } else p)
        = s.splitPoints := by
    intro h
    rw [List.map_congr_left (g := fun p => p) (fun p hp => if_neg (h p hp))]
    exact List.map_id' _
  refine ⟨?_, sortPoints_perm _, ?_, ?_, ?_⟩
  · intro h
    constructor
    · exact (sortPoints_perm _).trans (List.Perm.of_eq (hmapid h))
    · intro hsort
      have h2 : sortPoints (s.splitPoints.map (fun p =>
          if p.id = pid then { p with time := clampTime s.duration newTime } else p))
          = s.splitPoints := by
        rw [hmapid h]
        exact sortPoints_of_sorted hsort
      show EditorState.mk s.duration _ s.nextId = s
      rw [h2]
  · intro p hp hpid
    have hmem : (⟨p.id, clampTime s.duration newTime, p.label⟩ : SplitPoint)
        ∈ s.splitPoints.map (fun q =>
          if q.id = pid then { q with time := clampTime s.duration newTime } else q) := by
      refine List.mem_map.mpr ⟨p, hp, ?_⟩
      rw [if_pos hpid]
    exact (sortPoints_perm _).mem_iff.mpr hmem
  · intro q hq hqid
    have hmem : q ∈ s.splitPoints.map (fun p =>
        if p.id = pid then { p with time := clampTime s.duration newTime } else p) :=
      List.mem_map.mpr ⟨q, hq, if_neg hqid⟩
    exact (sortPoints_perm _).mem_iff.mpr hmem
  · intro hd
    exact ⟨le_max_left 0 _, max_le hd (min_le_left _ _)⟩

/-- C7 witness: updating the point with id 0 from time 4 to 99 over
duration 10 stores the clamped time, preserving id and label. -/
theorem C7_witness :
    ({ id := 0, time := clampTime 10 99, label := "Split 1" } : SplitPoint)
      ∈ (updateSplitPoint ⟨10, [⟨0, 4, "Split 1"⟩], 1⟩ 0 99).splitPoints
    ∧ clampTime 10 99 = 10 :=
  ⟨(C7_thm _ 0 99).2.2.1 ⟨0, 4, "Split 1"⟩ (by simp) rfl,
   by norm_num [clampTime]⟩

/-! ## Claim C6 -/

/-- C6: over a state with distinct ids, sorted in-range split points:
deleting the last segment (index `count+1`, with at least one split
point) removes the boundary immediately before it (the last split
point); deleting any other valid segment `i` removes the boundary
immediately after it (the split point at position `i-1`); in both cases
the segment count drops by exactly 1; an index outside `[1, count+1]`
is a no-op; and the union of all segment time ranges is unchanged. -/
theorem C6_thm (s : EditorState) (i : ℤ)
    (hnd : (s.splitPoints.map (fun q => q.id)).Nodup)
    (hsorted : sortedByTime s.splitPoints)
    (hrange : ∀ p ∈ s.splitPoints, 0 ≤ p.time ∧ p.time ≤ s.duration) :
    (1 ≤ i → i ≤ (s.splitPoints.length : ℤ) →
        (deleteSegment s i).splitPoints = s.splitPoints.eraseIdx (i - 1).toNat
        ∧ (getSegments (deleteSegment s i)).length = (getSegments s).length - 1)
    ∧ (i = (s.splitPoints.length : ℤ) + 1 → 1 ≤ s.splitPoints.length →
        (deleteSegment s i).splitPoints = s.splitPoints.eraseIdx (s.splitPoints.length - 1)
        ∧ (getSegments (deleteSegment s i)).length = (getSegments s).length - 1)
    ∧ ((i < 1 ∨ (s.splitPoints.length : ℤ) + 1 < i) → deleteSegment s i = s)
    ∧ segUnion (getSegments (deleteSegment s i)) = segUnion (getSegments s) := by
  have herase : ∀ n, n < s.splitPoints.length →
      (deleteSegment s i).splitPoints = s.splitPoints.eraseIdx n →
      segUnion (getSegments (deleteSegment s i)) = segUnion (getSegments s) := by
    intro n hn heq
    have hnonempty : s.splitPoints ≠ [] := by
      intro h0
      rw [h0] at hn
      simp at hn
    obtain ⟨p0, hp0⟩ := List.exists_mem_of_ne_nil _ hnonempty
    have hD : (0 : ℚ) ≤ s.duration := le_trans (hrange p0 hp0).1 (hrange p0 hp0).2
    have hdur := deleteSegment_duration s i
    have hsorted' : sortedByTime (deleteSegment s i).splitPoints := by
      rw [heq]
      exact List.Pairwise.sublist (List.eraseIdx_sublist _ _) hsorted
    have hrange' : ∀ p ∈ (deleteSegment s i).splitPoints,
        0 ≤ p.time ∧ p.time ≤ (deleteSegment s i).duration := by
      intro p hp
      rw [heq] at hp
      rw [hdur]
      exact hrange p ((List.eraseIdx_sublist _ _).subset hp)
    rw [segUnion_getSegments _ hsorted' hrange' (by rw [hdur]; exact hD)]
    rw [segUnion_getSegments s hsorted hrange hD, hdur]
  refine ⟨?_, ?_, deleteSegment_noop s i, ?_⟩
  · intro h1 h2
    have he := deleteSegment_mid s i hnd h1 h2
    refine ⟨he, ?_⟩
    rw [getSegments_length, getSegments_length, he,
      List.length_eraseIdx_of_lt (by omega)]
    omega
  · intro heq hlen1
    have he : (deleteSegment s i).splitPoints
        = s.splitPoints.eraseIdx (s.splitPoints.length - 1) := by
      rw [heq]
      exact deleteSegment_last s hnd hlen1
    refine ⟨he, ?_⟩
    rw [getSegments_length, getSegments_length, he,
      List.length_eraseIdx_of_lt (by omega)]
    omega
  · rcases lt_or_ge i 1 with h | h
    · rw [deleteSegment_noop s i (Or.inl h)]
    · rcases le_or_lt i (s.splitPoints.length : ℤ) with h2 | h2
      · exact herase _ (by omega) (deleteSegment_mid s i hnd h h2)
      · rcases eq_or_lt_of_le (show (s.splitPoints.length : ℤ) + 1 ≤ i by omega)
          with heq | hgt
        · by_cases hl0 : s.splitPoints.length = 0
          · rw [deleteSegment_of_empty s i (List.length_eq_zero.mp hl0)]
          · have hlen1 : 1 ≤ s.splitPoints.length := by omega
            refine herase (s.splitPoints.length - 1) (by omega) ?_
            rw [← heq]
            exact deleteSegment_last s hnd hlen1
        · rw [deleteSegment_noop s i (Or.inr hgt)]

/-- C6 witness: duration 90, split points at 30 and 60; deleting
segment 2 (not the last) removes the boundary after it (the point at
60, position 1), leaving 2 segments. -/
theorem C6_witness :
    (deleteSegment ⟨90, [⟨0, 30, "Split 1"⟩, ⟨1, 60, "Split 2"⟩], 2⟩ 2).splitPoints
      = ([⟨0, 30, "Split 1"⟩, ⟨1, 60, "Split 2"⟩] : List SplitPoint).eraseIdx
          ((2 : ℤ) - 1).toNat
    ∧ (getSegments (deleteSegment ⟨90, [⟨0, 30, "Split 1"⟩, ⟨1, 60, "Split 2"⟩], 2⟩ 2)).length
      = (getSegments (⟨90, [⟨0, 30, "Split 1"⟩, ⟨1, 60, "Split 2"⟩], 2⟩ : EditorState)).length - 1 :=
  (C6_thm ⟨90, [⟨0, 30, "Split 1"⟩, ⟨1, 60, "Split 2"⟩], 2⟩ 2
    (by decide) (by unfold sortedByTime; decide) (by decide)).1 (by decide) (by decide)

/-! ## Claim C4 -/

/-- C4 counterexample: with sample rate 2 and start time 3/4 the source
computes `Math.floor(3/4 * 2) = 1`, while rounding to the nearest
integer gives `round(3/2) = 2`; the conversion is a floor, not a
round. -/
theorem C4_counterexample :
    startSample { sampleRate := 2, numberOfChannels := 1, length := 10,
                  data := fun _ _ => 0 } (3 / 4) = 1
    ∧ round ((3 / 4 : ℚ) * 2) = 2
    ∧ (1 : ℤ) ≠ 2 := by
  refine ⟨?_, ?_, by decide⟩
  · norm_num [startSample]
  · norm_num [round_eq]

/-- C4 amended: the audio extractor converts seconds to sample indices
by flooring — `startSample = ⌊start·sampleRate⌋`,
`endSample = ⌊end·sampleRate⌋` — and the extracted channel holds
`endSample - startSample` entries, entry `i` being the source channel
read at index `startSample + i`. -/
theorem C4_amended (b : AudioBuffer) (startTime endTime : ℚ) (channel : ℕ) :
    (extractSegmentChannel b startTime endTime channel).length
      = (⌊endTime * b.sampleRate⌋ - ⌊startTime * b.sampleRate⌋).toNat
    ∧ ∀ i : ℕ, i < (⌊endTime * b.sampleRate⌋ - ⌊startTime * b.sampleRate⌋).toNat →
        (extractSegmentChannel b startTime endTime channel).get? i
          = some (readSample b channel (⌊startTime * b.sampleRate⌋ + i)) := by
  constructor
  · simp only [extractSegmentChannel, List.length_map, List.length_range,
      segmentLength, startSample, endSample]
  · intro i hi
    have hi' : i < (segmentLength b startTime endTime).toNat := by
      simpa [segmentLength, startSample, endSample] using hi
    simp only [extractSegmentChannel]
    rw [List.get?_map, List.get?_range hi']
    simp [startSample]

/-- C4 witness: a buffer with sample rate 2, extracting `[0, 1)`; entry
1 of the extracted channel is the source read at index `⌊0·2⌋ + 1`. -/
theorem C4_witness :
    (1 : ℕ) < (⌊(1 : ℚ) * (2 : ℚ)⌋ - ⌊(0 : ℚ) * (2 : ℚ)⌋).toNat
    ∧ (extractSegmentChannel
        { sampleRate := 2, numberOfChannels := 1, length := 10,
          data := fun _ _ => 0 } 0 1 0).get? 1
      = some (readSample
          { sampleRate := 2, numberOfChannels := 1, length := 10,
            data := fun _ _ => 0 } 0 (⌊(0 : ℚ) * (2 : ℚ)⌋ + (1 : ℕ))) := by
  have h : (1 : ℕ) < (⌊(1 : ℚ) * (2 : ℚ)⌋ - ⌊(0 : ℚ) * (2 : ℚ)⌋).toNat := by
    norm_num
  exact ⟨h, (C4_amended _ 0 1 0).2 1 h⟩

/-! ## Claim C5 -/

theorem audioExportLoop_delivered_iff_encoded (ok : ℕ → Bool) :
    ∀ (fuel i d : ℕ),
      ExportEvent.delivered d ∈ audioExportLoop ok i fuel
        ↔ ExportEvent.encoded d ∈ audioExportLoop ok i fuel := by
  intro fuel
  induction fuel with
  | zero => intro i d; simp [audioExportLoop]
  | succ fuel ih =>
      intro i d
      by_cases h : ok i = true
      · simp [audioExportLoop, h, ih (i + 1) d]
      · simp [audioExportLoop, h]

theorem videoExportLoop_fst_no_delivered (ok : ℕ → Bool) :
    ∀ (fuel i d : ℕ), ExportEvent.delivered d ∉ (videoExportLoop ok i fuel).1 := by
  intro fuel
  induction fuel with
  | zero => intro i d; simp [videoExportLoop]
  | succ fuel ih =>
      intro i d
      by_cases h : ok i = true
      · simp [videoExportLoop, h, ih (i + 1) d]
      · simp [videoExportLoop, h]

theorem videoExportLoop_no_failed_of_some (ok : ℕ → Bool) :
    ∀ (fuel i : ℕ) (l : List ℕ), (videoExportLoop ok i fuel).2 = some l →
      ExportEvent.failed ∉ (videoExportLoop ok i fuel).1 := by
  intro fuel
  induction fuel with
  | zero => intro i l _; simp [videoExportLoop]
  | succ fuel ih =>
      intro i l hsome
      by_cases h : ok i = true
      · simp only [videoExportLoop, h, if_true] at hsome ⊢
        cases hr : (videoExportLoop ok (i + 1) fuel).2 with
        | none => rw [hr] at hsome; simp at hsome
        | some l' =>
            simp only [List.mem_cons, not_or]
            exact ⟨by simp, ih (i + 1) l' hr⟩
      · simp only [videoExportLoop, h, if_false] at hsome
        simp at hsome

theorem videoExportLoop_all_ok (ok : ℕ → Bool) (hok : ∀ j, ok j = true) :
    ∀ (fuel i : ℕ), videoExportLoop ok i fuel
      = ((List.range' i fuel).map ExportEvent.encoded, some (List.range' i fuel)) := by
  intro fuel
  induction fuel with
  | zero => intro i; simp [videoExportLoop]
  | succ fuel ih =>
      intro i
      simp [videoExportLoop, hok i, ih (i + 1), List.range'_succ]

/-- C5 counterexample: in the audio export of 2 segments where segment
1 encodes and segment 2 fails, segment 1 has already been delivered
when the failure occurs — a partial set of outputs is delivered before
every segment has been encoded, refuting the claim for the audio
pipeline. -/
theorem C5_counterexample :
    ExportEvent.delivered 1 ∈ audioExport (fun i => decide (i = 1)) 2
    ∧ ExportEvent.failed ∈ audioExport (fun i => decide (i = 1)) 2
    ∧ audioExport (fun i => decide (i = 1)) 2
      = [ExportEvent.encoded 1, ExportEvent.delivered 1, ExportEvent.failed] := by
  decide

/-- C5 amended: the video export delivers outputs all together only
after the last segment's encode (when every encode succeeds the trace
is all encodes followed by all deliveries in index order), and on any
encode failure nothing at all is delivered; the audio export instead
delivers each segment immediately upon its encode — a segment is
delivered exactly when it was encoded — so a mid-run failure leaves the
earlier segments already delivered. -/
theorem C5_amended (ok : ℕ → Bool) (n : ℕ) :
    (ExportEvent.failed ∈ videoExport ok n →
        ∀ d, ExportEvent.delivered d ∉ videoExport ok n)
    ∧ ((∀ j, ok j = true) →
        videoExport ok n = (List.range' 1 n).map ExportEvent.encoded
          ++ (List.range' 1 n).map ExportEvent.delivered)
    ∧ (∀ d, ExportEvent.delivered d ∈ audioExport ok n
        ↔ ExportEvent.encoded d ∈ audioExport ok n) := by
  refine ⟨?_, ?_, fun d => audioExportLoop_delivered_iff_encoded ok n 1 d⟩
  · intro hfail d hdel
    rcases hv : videoExportLoop ok 1 n with ⟨evs, blobs⟩
    cases blobs with
    | some l =>
        have hnofail := videoExportLoop_no_failed_of_some ok n 1 l (by rw [hv])
        rw [hv] at hnofail
        simp only [videoExport, hv] at hfail
        rcases List.mem_append.mp hfail with hf | hf
        · exact hnofail hf
        · simp at hf
    | none =>
        have hnodel := videoExportLoop_fst_no_delivered ok n 1 d
        rw [hv] at hnodel
        simp only [videoExport, hv] at hdel
        exact hnodel hdel
  · intro hok
    simp [videoExport, videoExportLoop_all_ok ok hok n 1]

/-- C5 witness: the video export of 2 segments with every encode
succeeding emits both encodes, then both deliveries, in index order. -/
theorem C5_witness :
    videoExport (fun _ => true) 2
      = (List.range' 1 2).map ExportEvent.encoded
        ++ (List.range' 1 2).map ExportEvent.delivered :=
  (C5_amended (fun _ => true) 2).2.1 (fun _ => rfl)

/-! ## Claim C3 -/

/-- C3: evaluation at the failing input — a buffer of 10 samples per
channel at sample rate 1, extracting the span `[0, 20)`: the source
computes `endSample = 20` with no clamp to the buffer length 10, and
the copy loop performs reads past the end of the source channel data
(the `none`/`undefined` entries), contradicting the claim. -/
theorem C3_thm :
    endSample ⟨1, 1, 10, fun _ _ => 0⟩ 20 = 20
    ∧ ¬ (endSample ⟨1, 1, 10, fun _ _ => 0⟩ 20 ≤ (10 : ℤ))
    ∧ none ∈ extractSegmentChannel ⟨1, 1, 10, fun _ _ => 0⟩ 0 20 0
    ∧ (extractSegmentChannel ⟨1, 1, 10, fun _ _ => 0⟩ 0 20 0).get? 10 = some none := by
  have hstart : startSample ⟨1, 1, 10, fun _ _ => 0⟩ 0 = 0 := by
    norm_num [startSample]
  have hend : endSample ⟨1, 1, 10, fun _ _ => 0⟩ 20 = 20 := by
    norm_num [endSample]
  have hb : extractSegmentChannel ⟨1, 1, 10, fun _ _ => 0⟩ 0 20 0
      = (List.range 20).map
          (fun i : ℕ => readSample ⟨1, 1, 10, fun _ _ => 0⟩ 0 ((0 : ℤ) + (i : ℤ))) := by
    rw [extractSegmentChannel, segmentLength, hstart, hend]
    norm_num
    rfl
  refine ⟨hend, ?_, ?_, ?_⟩
  · rw [hend]
    decide
  · rw [hb]
    decide
  · rw [hb]
    decide

/-! ## Claim C9 -/

/-- C9: `ensureFfmpeg` is idempotent lazy initialization: a cached
instance is returned unchanged with no source attempted; from the empty
state the result is the first source in priority order `[0, 1, 2]` that
loads; when all three fail the call fails and leaves the state empty, so
a later call (under any environment) behaves exactly like a fresh first
call; and the cached state always equals the returned instance. -/
theorem C9_thm (ok ok2 : ℕ → Bool) (st : Option ℕ) :
    (∀ f, st = some f → ensureFfmpeg ok st = (some f, some f))
    ∧ (ensureFfmpeg ok none).1 = [0, 1, 2].find? ok
    ∧ ((∀ k ∈ [0, 1, 2], ok k = false) → ensureFfmpeg ok none = (none, none))
    ∧ ((∀ k ∈ [0, 1, 2], ok k = false) →
        ensureFfmpeg ok2 (ensureFfmpeg ok none).2 = ensureFfmpeg ok2 none)
    ∧ (ensureFfmpeg ok st).2 = (ensureFfmpeg ok st).1 := by
  refine ⟨?_, ?_, ?_, ?_, ?_⟩
  · intro f hf
    subst hf
    rfl
  · cases h0 : ok 0 <;> cases h1 : ok 1 <;> cases h2 : ok 2 <;>
      simp [ensureFfmpeg, List.find?, h0, h1, h2]
  · intro hall
    have h0 := hall 0 (by simp)
    have h1 := hall 1 (by simp)
    have h2 := hall 2 (by simp)
    simp [ensureFfmpeg, h0, h1, h2]
  · intro hall
    have h0 := hall 0 (by simp)
    have h1 := hall 1 (by simp)
    have h2 := hall 2 (by simp)
    simp [ensureFfmpeg, h0, h1, h2]
  · cases st with
    | some f => rfl
    | none =>
        cases h0 : ok 0 <;> cases h1 : ok 1 <;> cases h2 : ok 2 <;>
          simp [ensureFfmpeg, h0, h1, h2]

/-- C9 witness: in an environment where every source fails, the call
from the empty state fails totally, and the retry from the resulting
state under an environment where source 1 works behaves like a fresh
call. -/
theorem C9_witness :
    ((∀ k ∈ [0, 1, 2], (fun _ => false) k = false) →
        ensureFfmpeg (fun _ => false) none = (none, none))
    ∧ ((∀ k ∈ [0, 1, 2], (fun _ => false) k = false) →
        ensureFfmpeg (fun k => k = 1) (ensureFfmpeg (fun _ => false) none).2
          = ensureFfmpeg (fun k => k = 1) none) := by
  refine ⟨(C9_thm (fun _ => false) (fun k => k = 1) none).2.2.1,
          (C9_thm (fun _ => false) (fun k => k = 1) none).2.2.2.1⟩

/-! ## Claim C10 -/

/-- C10: with no split points (the sole derived segment covering the
whole range), `deleteSegment 1` is a no-op: the last-segment branch
computes split-point index `-1`, the bounds check fails, and the state
is unchanged. -/
theorem C10_thm (s : EditorState) (h : s.splitPoints = []) :
    deleteSegment s 1 = s := by
  simp [deleteSegment, h]

/-- C10 witness: the empty split-point state over duration 120 is left
untouched by `deleteSegment 1`. -/
theorem C10_witness :
    ({ duration := 120, splitPoints := [], nextId := 0 } : EditorState).splitPoints = []
    ∧ deleteSegment { duration := 120, splitPoints := [], nextId := 0 } 1
        = { duration := 120, splitPoints := [], nextId := 0 } :=
  ⟨rfl, C10_thm _ rfl⟩

end SliceDice
